import Mathlib

/-!
Verification of the chunked-summarization core of `text_to_summary_cli.py`.

Strings are modelled as `List Char`.  The Python operations used by the
program (`str.strip`, `str.split("\n")`, `"\n".join`, `str.replace`,
`str.split(".")`) are embedded below, and the two program functions
`chunk_text` and `summarize` are translated from the source line by line.
-/

set_option autoImplicit false

/-- Convert a string literal to the `List Char` model used throughout. -/
def toL (s : String) : List Char := s.toList

/-- The ASCII whitespace characters stripped by Python's `str.strip()`. -/
def isPySpace (c : Char) : Bool :=
  c = ' ' || c = '\t' || c = '\n' || c = '\r' || c = '\x0b' || c = '\x0c'

/-- Python `s.strip()`: drop whitespace from both ends
(`rdropWhile p l` is `(l.reverse.dropWhile p).reverse`). -/
def pyStrip (s : List Char) : List Char :=
  List.rdropWhile isPySpace (s.dropWhile isPySpace)

/-- Python `s.split(sep)` for a one-character separator `sep`:
splits at every occurrence, keeping empty pieces. -/
def splitCh (sep : Char) : List Char → List (List Char)
  | [] => [[]]
  | c :: cs =>
    let r := splitCh sep cs
    if c = sep then [] :: r else (c :: r.headD []) :: r.tail

/-- Python `sep.join(pieces)` for a one-character separator. -/
def joinCh (sep : Char) : List (List Char) → List Char
  | [] => []
  | [x] => x
  | x :: y :: ys => x ++ sep :: joinCh sep (y :: ys)

/-- The accumulation loop of `chunk_text` (`for para in text.split("\n")`),
carrying the Python state `(chunks, curr, curr_len)`.  A paragraph is
stripped; blank paragraphs are skipped; if adding the paragraph (plus a
one-character separator) would push `curr_len` past `max_chars`, the
current chunk is closed (even when `curr` is still empty) and the
paragraph starts a fresh chunk; otherwise it is appended.  At the end the
pending chunk is flushed if non-empty (`if curr:`). -/
def chunkLoop (max_chars : Nat) :
    List (List Char) → List (List Char) → List (List Char) → Nat → List (List Char)
  | [], chunks, curr, _ =>
    if curr.isEmpty then chunks else chunks ++ [joinCh '\n' curr]
  | para :: rest, chunks, curr, curr_len =>
    let p := pyStrip para
    if p.isEmpty then
      chunkLoop max_chars rest chunks curr curr_len
    else if max_chars < curr_len + p.length + 1 then
      chunkLoop max_chars rest (chunks ++ [joinCh '\n' curr]) [p] p.length
    else
      chunkLoop max_chars rest chunks (curr ++ [p]) (curr_len + p.length + 1)

/-- `chunk_text(text, max_chars)` from the source: strip the text; if it
fits in `max_chars`, return it as the sole chunk, else run the
paragraph-accumulation loop. -/
def chunk_text (text : List Char) (max_chars : Nat) : List (List Char) :=
  let t := pyStrip text
  if t.length ≤ max_chars then [t]
  else chunkLoop max_chars (splitCh '\n' t) [] [] 0

/-- The sentinel returned by `summarize` for empty input
(`"No article text received."`). -/
def noContentMsg : List Char := toL "No article text received."

/-- Python `final.replace("\n", " ")`. -/
def nlToSpace (s : List Char) : List Char :=
  s.map (fun c => if c = '\n' then ' ' else c)

/-- The per-chunk summaries: `summarize_one` applied to each chunk in
order (the `for c in chunks` loop of `summarize`), with `min_len`,
`max_len` and `beams` passed through unmodified. -/
def perChunkSummaries (f : List Char → Nat → Nat → Nat → List Char)
    (chunks : List (List Char)) (mn mx bm : Nat) : List (List Char) :=
  chunks.map (fun c => f c mn mx bm)

/-- `combined = "\n".join(partial)` from `summarize`. -/
def combinedOf (f : List Char → Nat → Nat → Nat → List Char)
    (a : List Char) (mn mx bm : Nat) : List Char :=
  joinCh '\n' (perChunkSummaries f (chunk_text a 1200) mn mx bm)

/-- `final` from `summarize`: a second summarization pass over `combined`
when more than one chunk was produced, otherwise `combined` itself. -/
def finalOf (f : List Char → Nat → Nat → Nat → List Char)
    (a : List Char) (mn mx bm : Nat) : List Char :=
  if 1 < (chunk_text a 1200).length then
    f (combinedOf f a mn mx bm) mn mx bm
  else combinedOf f a mn mx bm

/-- The key-point sentences extracted from `final`:
`[s.strip() for s in final.replace("\n", " ").split(".") if s.strip()]`,
capped at 5 (`sentences[:5]`) and re-suffixed with a period
(the `.` appended in `f"- {s}."`). -/
def keyPoints (s : List Char) : List (List Char) :=
  (((((splitCh '.' (nlToSpace s)).map pyStrip).filter
      (fun x => !x.isEmpty)).take 5).map (fun x => x ++ ['.']))

/-- `bullets = "\n".join([f"- {s}." for s in sentences[:5]])`. -/
def bulletLines (s : List Char) : List Char :=
  joinCh '\n' ((keyPoints s).map (fun b => '-' :: ' ' :: b))

/-- The final report string
`f"\n=== SUMMARY ===\n{final}\n\n=== KEY POINTS ===\n{bullets}\n"`. -/
def reportOf (finalText bullets : List Char) : List Char :=
  toL "\n=== SUMMARY ===\n" ++ finalText ++
    toL "\n\n=== KEY POINTS ===\n" ++ bullets ++ toL "\n"

/-- `summarize(article_text, min_len, max_len, beams)` from the source,
parameterized over the external summarization capability `f`
(`summarize_one`).  Empty or whitespace-only input returns the sentinel
without any use of `f`. -/
def summarize (f : List Char → Nat → Nat → Nat → List Char)
    (a : List Char) (mn mx bm : Nat) : List Char :=
  if (pyStrip a).isEmpty then noContentMsg
  else reportOf (finalOf f a mn mx bm) (bulletLines (finalOf f a mn mx bm))

/-- The ordered sequence of inputs on which `summarize` invokes the
summarization capability: each chunk in order, then (when more than one
chunk was produced) the joined per-chunk summaries for the merge pass. -/
def summarizeCalls (f : List Char → Nat → Nat → Nat → List Char)
    (a : List Char) (mn mx bm : Nat) : List (List Char) :=
  if (pyStrip a).isEmpty then []
  else
    chunk_text a 1200 ++
      (if 1 < (chunk_text a 1200).length then [combinedOf f a mn mx bm] else [])

/-- Run the per-chunk summarization loop with a fallible capability,
returning the results (or the first error) together with the ordered
trace of inputs actually attempted; the loop stops at the first error,
matching a raised exception aborting the Python `for` loop. -/
def runChunksE {E : Type} (g : List Char → Except E (List Char)) :
    List (List Char) → Except E (List (List Char)) × List (List Char)
  | [] => (Except.ok [], [])
  | c :: cs =>
    match g c with
    | Except.error e => (Except.error e, [c])
    | Except.ok r =>
      let res := runChunksE g cs
      (match res.1 with
       | Except.error e => Except.error e
       | Except.ok rs => Except.ok (r :: rs), c :: res.2)

/-- `summarize` with a fallible summarization capability: since the
source wraps no call in `try`/`except`, an error raised by any
invocation aborts the pipeline and propagates unchanged.  Returns the
result (report or first error) and the ordered trace of attempted
invocation inputs. -/
def summarizeE {E : Type} (f : List Char → Nat → Nat → Nat → Except E (List Char))
    (a : List Char) (mn mx bm : Nat) :
    Except E (List Char) × List (List Char) :=
  if (pyStrip a).isEmpty then (Except.ok noContentMsg, [])
  else
    let chunks := chunk_text a 1200
    let res := runChunksE (fun c => f c mn mx bm) chunks
    match res.1 with
    | Except.error e => (Except.error e, res.2)
    | Except.ok rs =>
      let combined := joinCh '\n' rs
      if 1 < chunks.length then
        match f combined mn mx bm with
        | Except.error e => (Except.error e, res.2 ++ [combined])
        | Except.ok fin =>
          (Except.ok (reportOf fin (bulletLines fin)), res.2 ++ [combined])
      else (Except.ok (reportOf combined (bulletLines combined)), res.2)

/-- Strip each paragraph and drop the blanks: the subsequence of
non-blank stripped paragraphs, which is what the chunking loop
accumulates. -/
def stripSeq (l : List (List Char)) : List (List Char) :=
  (l.map pyStrip).filter (fun x => !x.isEmpty)

/-- The stripped non-blank paragraph sequence of a chunk. -/
def normParas (c : List Char) : List (List Char) :=
  stripSeq (splitCh '\n' c)

/-- The stripped non-blank paragraph sequence of the trimmed article:
the paragraphs that `chunk_text` distributes over its chunks. -/
def nbParas (t : List Char) : List (List Char) :=
  normParas (pyStrip t)

/-- Concatenation, in order, of the per-chunk stripped non-blank
paragraph sequences. -/
def chunksParaSeq : List (List Char) → List (List Char)
  | [] => []
  | c :: cs => normParas c ++ chunksParaSeq cs

/-- Concatenation of the raw `splitCh` decompositions of a chunk list. -/
def chunksSplit (sep : Char) : List (List Char) → List (List Char)
  | [] => []
  | c :: cs => splitCh sep c ++ chunksSplit sep cs

/-- Invariant of every chunk emitted by the accumulation loop: it is the
line-break join of a block of non-empty, newline-free, already-stripped
paragraphs, and its length can exceed the bound `N` only when the block
is a single oversized paragraph. -/
def GoodChunk (N : Nat) (c : List Char) : Prop :=
  ∃ g : List (List Char), c = joinCh '\n' g ∧
    (∀ q ∈ g, q ≠ [] ∧ '\n' ∉ q ∧ pyStrip q = q) ∧
    (c.length ≤ N ∨ ∃ q, g = [q] ∧ N < q.length)

/-- A constant summarization stub (a deterministic fake collaborator)
used to exercise the orchestration theorems on concrete inputs. -/
def stubConst (r : List Char) : List Char → Nat → Nat → Nat → List Char :=
  fun _ _ _ _ => r

/-- A summarization stub that fails on every invocation, used to
exercise the error-propagation theorem on concrete inputs. -/
def stubFail : List Char → Nat → Nat → Nat → Except Nat (List Char) :=
  fun _ _ _ _ => Except.error 7

lemma splitCh_nil (sep : Char) : splitCh sep [] = [[]] := rfl

lemma splitCh_cons_sep (sep : Char) (cs : List Char) :
    splitCh sep (sep :: cs) = [] :: splitCh sep cs := by
  simp [splitCh]

lemma splitCh_cons_ne (sep c : Char) (cs : List Char) (h : ¬c = sep) :
    splitCh sep (c :: cs) =
      (c :: (splitCh sep cs).headD []) :: (splitCh sep cs).tail := by
  simp [splitCh, h]

lemma splitCh_ne_nil (sep : Char) : ∀ s : List Char, splitCh sep s ≠ []
  | [] => by simp [splitCh]
  | c :: cs => by
    by_cases h : c = sep
    · subst h; simp [splitCh_cons_sep]
    · simp [splitCh_cons_ne sep c cs h]

lemma splitCh_cons_exists (sep : Char) (s : List Char) :
    ∃ x t, splitCh sep s = x :: t := by
  cases hs : splitCh sep s with
  | nil => exact absurd hs (splitCh_ne_nil sep s)
  | cons x t => exact ⟨x, t, rfl⟩

lemma splitCh_append (sep : Char) :
    ∀ a b : List Char, splitCh sep (a ++ sep :: b) = splitCh sep a ++ splitCh sep b
  | [], b => by simp [splitCh_cons_sep, splitCh_nil]
  | c :: a, b => by
    by_cases h : c = sep
    · subst h
      rw [List.cons_append, splitCh_cons_sep, splitCh_cons_sep,
        splitCh_append c a b, List.cons_append]
    · obtain ⟨x, t, hx⟩ := splitCh_cons_exists sep a
      rw [List.cons_append, splitCh_cons_ne sep c _ h, splitCh_cons_ne sep c a h,
        splitCh_append sep a b, hx]
      simp

lemma splitCh_eq_single (sep : Char) :
    ∀ s : List Char, sep ∉ s → splitCh sep s = [s]
  | [], _ => rfl
  | c :: cs, h => by
    have hc : ¬c = sep := by
      rintro rfl; exact h (List.mem_cons_self _ _)
    have hcs : sep ∉ cs := fun hm => h (List.mem_cons_of_mem c hm)
    rw [splitCh_cons_ne sep c cs hc, splitCh_eq_single sep cs hcs]
    rfl

lemma not_mem_of_mem_splitCh (sep : Char) :
    ∀ (s : List Char), ∀ x ∈ splitCh sep s, sep ∉ x
  | [], x, hx => by
    simp [splitCh_nil] at hx; subst hx; simp
  | c :: cs, x, hx => by
    by_cases h : c = sep
    · subst h
      rw [splitCh_cons_sep] at hx
      rcases List.mem_cons.mp hx with h1 | h1
      · subst h1; simp
      · exact not_mem_of_mem_splitCh c cs x h1
    · obtain ⟨y, t, hy⟩ := splitCh_cons_exists sep cs
      rw [splitCh_cons_ne sep c cs h, hy] at hx
      simp only [List.headD_cons, List.tail_cons] at hx
      rcases List.mem_cons.mp hx with h1 | h1
      · subst h1
        intro hm
        rcases List.mem_cons.mp hm with h2 | h2
        · exact h h2.symm
        · exact not_mem_of_mem_splitCh sep cs y
            (by rw [hy]; exact List.mem_cons_self y t) h2
      · exact not_mem_of_mem_splitCh sep cs x
          (by rw [hy]; exact List.mem_cons_of_mem y h1)

lemma headD_splitCh_pre (sep : Char) :
    ∀ s : List Char, (splitCh sep s).headD [] <+: s
  | [] => by simp [splitCh_nil]
  | c :: cs => by
    by_cases h : c = sep
    · subst h
      rw [splitCh_cons_sep]
      exact ⟨c :: cs, rfl⟩
    · obtain ⟨y, t, hy⟩ := splitCh_cons_exists sep cs
      rw [splitCh_cons_ne sep c cs h, hy]
      simp only [List.headD_cons]
      refine List.cons_prefix_cons.mpr ⟨rfl, ?_⟩
      have hp := headD_splitCh_pre sep cs
      rwa [hy] at hp

lemma infix_of_mem_splitCh (sep : Char) :
    ∀ (s : List Char), ∀ x ∈ splitCh sep s, x <:+: s
  | [], x, hx => by
    simp [splitCh_nil] at hx; subst hx; exact ⟨[], [], rfl⟩
  | c :: cs, x, hx => by
    by_cases h : c = sep
    · subst h
      rw [splitCh_cons_sep] at hx
      rcases List.mem_cons.mp hx with h1 | h1
      · subst h1; exact ⟨[], c :: cs, rfl⟩
      · exact List.infix_cons (infix_of_mem_splitCh c cs x h1)
    · obtain ⟨y, t, hy⟩ := splitCh_cons_exists sep cs
      rw [splitCh_cons_ne sep c cs h, hy] at hx
      simp only [List.headD_cons, List.tail_cons] at hx
      rcases List.mem_cons.mp hx with h1 | h1
      · subst h1
        have hp : y <+: cs := by
          have hq := headD_splitCh_pre sep cs
          rwa [hy] at hq
        exact (List.cons_prefix_cons.mpr ⟨rfl, hp⟩).isInfix
      · exact List.infix_cons (infix_of_mem_splitCh sep cs x
          (by rw [hy]; exact List.mem_cons_of_mem y h1))

lemma joinCh_nil (sep : Char) : joinCh sep [] = [] := rfl

lemma joinCh_single (sep : Char) (x : List Char) : joinCh sep [x] = x := rfl

lemma joinCh_cons_cons (sep : Char) (x y : List Char) (ys : List (List Char)) :
    joinCh sep (x :: y :: ys) = x ++ sep :: joinCh sep (y :: ys) := rfl

lemma joinCh_cons_ne (sep : Char) (x : List Char) (l : List (List Char)) (h : l ≠ []) :
    joinCh sep (x :: l) = x ++ sep :: joinCh sep l := by
  cases l with
  | nil => exact absurd rfl h
  | cons y ys => rfl

lemma length_joinCh_append_one (sep : Char) (q : List Char) :
    ∀ l : List (List Char), l ≠ [] →
      (joinCh sep (l ++ [q])).length = (joinCh sep l).length + 1 + q.length
  | [], h => absurd rfl h
  | [x], _ => by
    simp [joinCh_single, joinCh_cons_cons, List.length_append]
    omega
  | x :: y :: ys, _ => by
    have ih := length_joinCh_append_one sep q (y :: ys) (by simp)
    rw [List.cons_append, joinCh_cons_ne sep x _ (by simp), joinCh_cons_cons]
    simp only [List.length_append, List.length_cons]
    omega

lemma length_le_joinCh (sep : Char) :
    ∀ (l : List (List Char)), ∀ q ∈ l, q.length ≤ (joinCh sep l).length
  | [], q, hq => absurd hq (List.not_mem_nil q)
  | [x], q, hq => by
    rcases List.mem_singleton.mp hq with rfl
    simp [joinCh_single]
  | x :: y :: ys, q, hq => by
    rw [joinCh_cons_cons]
    rcases List.mem_cons.mp hq with h1 | h1
    · subst h1; simp [List.length_append]
    · have hr := length_le_joinCh sep (y :: ys) q h1
      simp only [List.length_append, List.length_cons]
      omega

lemma infix_of_mem_joinCh (sep : Char) :
    ∀ (l : List (List Char)), ∀ q ∈ l, q <:+: joinCh sep l
  | [], q, hq => absurd hq (List.not_mem_nil q)
  | [x], q, hq => by
    rcases List.mem_singleton.mp hq with rfl
    rw [joinCh_single]
  | x :: y :: ys, q, hq => by
    rw [joinCh_cons_cons]
    rcases List.mem_cons.mp hq with h1 | h1
    · subst h1; exact ⟨[], sep :: joinCh sep (y :: ys), rfl⟩
    · obtain ⟨u, v, huv⟩ := infix_of_mem_joinCh sep (y :: ys) q h1
      exact ⟨x ++ sep :: u, v, by rw [← huv]; simp [List.append_assoc]⟩

lemma splitCh_joinCh_flat (sep : Char) :
    ∀ cs : List (List Char), cs ≠ [] →
      splitCh sep (joinCh sep cs) = chunksSplit sep cs
  | [], h => absurd rfl h
  | [c], _ => by simp [joinCh_single, chunksSplit, splitCh_nil]
  | c :: d :: ds, _ => by
    rw [joinCh_cons_cons, splitCh_append, splitCh_joinCh_flat sep (d :: ds) (by simp)]
    rfl

lemma splitCh_joinCh (sep : Char) :
    ∀ l : List (List Char), (∀ x ∈ l, sep ∉ x) → l ≠ [] →
      splitCh sep (joinCh sep l) = l
  | [], _, h => absurd rfl h
  | [x], hx, _ => by
    rw [joinCh_single, splitCh_eq_single sep x (hx x (List.mem_singleton_self x))]
  | x :: y :: ys, hx, _ => by
    rw [joinCh_cons_cons, splitCh_append,
      splitCh_eq_single sep x (hx x (List.mem_cons_self _ _)),
      splitCh_joinCh sep (y :: ys) (fun z hz => hx z (List.mem_cons_of_mem x hz))
        (by simp)]
    rfl

lemma dropWhile_head_false {p : Char → Bool} :
    ∀ {l cs : List Char} {c : Char}, l.dropWhile p = c :: cs → p c = false := by
  intro l
  induction l with
  | nil => intro cs c h; simp [List.dropWhile] at h
  | cons a l ih =>
    intro cs c h
    rw [List.dropWhile_cons] at h
    by_cases hp : p a
    · rw [if_pos hp] at h; exact ih h
    · rw [if_neg hp] at h
      injection h with h1 _
      subst h1
      simpa using hp

lemma pyStrip_pre_suf (s : List Char) : ∃ u v, u ++ pyStrip s ++ v = s := by
  obtain ⟨v, hv⟩ := List.rdropWhile_prefix isPySpace (s.dropWhile isPySpace)
  obtain ⟨u, hu⟩ := List.dropWhile_suffix (l := s) isPySpace
  have hv2 : pyStrip s ++ v = s.dropWhile isPySpace := hv
  exact ⟨u, v, by rw [List.append_assoc, hv2, hu]⟩

lemma infixOf_pyStrip (s : List Char) : pyStrip s <:+: s := by
  obtain ⟨u, v, h⟩ := pyStrip_pre_suf s
  exact ⟨u, v, h⟩

lemma mem_of_mem_pyStrip {s : List Char} {c : Char} (h : c ∈ pyStrip s) : c ∈ s :=
  (infixOf_pyStrip s).sublist.subset h

lemma not_mem_pyStrip {s : List Char} {c : Char} (h : c ∉ s) : c ∉ pyStrip s :=
  fun hm => h (mem_of_mem_pyStrip hm)

lemma length_pyStrip_le (s : List Char) : (pyStrip s).length ≤ s.length :=
  (infixOf_pyStrip s).sublist.length_le

lemma pyStrip_head_not_space {s cs : List Char} {c : Char}
    (h : pyStrip s = c :: cs) : isPySpace c = false := by
  obtain ⟨v, hv⟩ := List.rdropWhile_prefix isPySpace (s.dropWhile isPySpace)
  have hv2 : pyStrip s ++ v = s.dropWhile isPySpace := hv
  rw [h] at hv2
  exact dropWhile_head_false (l := s) (by rw [← hv2]; rfl)

lemma pyStrip_ne_nil_head {c : Char} {cs : List Char} (hc : isPySpace c = false) :
    pyStrip (c :: cs) ≠ [] := by
  unfold pyStrip
  rw [List.dropWhile_cons, if_neg (by simp [hc])]
  simp only [ne_eq, List.rdropWhile_eq_nil_iff]
  push_neg
  exact ⟨c, List.mem_cons_self _ _, by simp [hc]⟩

lemma dropWhile_pyStrip (s : List Char) :
    (pyStrip s).dropWhile isPySpace = pyStrip s := by
  cases h : pyStrip s with
  | nil => simp
  | cons c cs =>
    rw [List.dropWhile_cons, if_neg (by simp [pyStrip_head_not_space h])]

lemma pyStrip_idem (s : List Char) : pyStrip (pyStrip s) = pyStrip s := by
  show List.rdropWhile isPySpace ((pyStrip s).dropWhile isPySpace) = pyStrip s
  rw [dropWhile_pyStrip]
  show List.rdropWhile isPySpace (List.rdropWhile isPySpace (s.dropWhile isPySpace)) = _
  rw [List.rdropWhile_idempotent]
  rfl

lemma stripSeq_nil : stripSeq [] = [] := rfl

lemma stripSeq_cons_blank (p : List Char) (l : List (List Char))
    (h : pyStrip p = []) : stripSeq (p :: l) = stripSeq l := by
  simp [stripSeq, h]

lemma stripSeq_cons_of_ne (p : List Char) (l : List (List Char))
    (h : pyStrip p ≠ []) : stripSeq (p :: l) = pyStrip p :: stripSeq l := by
  simp [stripSeq, List.filter_cons, h]

lemma mem_stripSeq {l : List (List Char)} {x : List Char} (h : x ∈ stripSeq l) :
    x ≠ [] ∧ ∃ p ∈ l, pyStrip p = x := by
  unfold stripSeq at h
  have h1 := List.of_mem_filter h
  have h2 := List.mem_of_mem_filter h
  constructor
  · simpa using h1
  · simpa using List.mem_map.mp h2

lemma stripSeq_append (a b : List (List Char)) :
    stripSeq (a ++ b) = stripSeq a ++ stripSeq b := by
  simp [stripSeq]

lemma stripSeq_eq_self {g : List (List Char)}
    (hg : ∀ q ∈ g, q ≠ [] ∧ pyStrip q = q) : stripSeq g = g := by
  unfold stripSeq
  have h1 : g.map pyStrip = g := by
    have h2 := List.map_congr_left (l := g) (f := pyStrip) (g := id)
      (fun q hq => (hg q hq).2)
    simpa using h2
  rw [h1]
  exact List.filter_eq_self.mpr (fun a ha => by simpa using (hg a ha).1)

lemma normParas_nil : normParas [] = [] := rfl

lemma normParas_joinCh {g : List (List Char)}
    (hg : ∀ q ∈ g, q ≠ [] ∧ '\n' ∉ q ∧ pyStrip q = q) :
    normParas (joinCh '\n' g) = g := by
  cases g with
  | nil => exact normParas_nil
  | cons x xs =>
    unfold normParas
    rw [splitCh_joinCh '\n' (x :: xs) (fun z hz => (hg z hz).2.1) (by simp)]
    exact stripSeq_eq_self (fun q hq => ⟨(hg q hq).1, (hg q hq).2.2⟩)

lemma chunksParaSeq_nil : chunksParaSeq [] = [] := rfl

lemma chunksParaSeq_cons (c : List Char) (cs : List (List Char)) :
    chunksParaSeq (c :: cs) = normParas c ++ chunksParaSeq cs := rfl

lemma chunksParaSeq_append (a b : List (List Char)) :
    chunksParaSeq (a ++ b) = chunksParaSeq a ++ chunksParaSeq b := by
  induction a with
  | nil => rfl
  | cons c cs ih => simp [chunksParaSeq_cons, ih, List.append_assoc]

lemma mem_of_mem_chunksParaSeq :
    ∀ (cs : List (List Char)) (q : List Char), q ∈ chunksParaSeq cs →
      ∃ c ∈ cs, q ∈ normParas c
  | [], q, hq => absurd hq (List.not_mem_nil q)
  | c :: cs, q, hq => by
    rw [chunksParaSeq_cons] at hq
    rcases List.mem_append.mp hq with h1 | h1
    · exact ⟨c, List.mem_cons_self _ _, h1⟩
    · obtain ⟨d, hd, hq2⟩ := mem_of_mem_chunksParaSeq cs q h1
      exact ⟨d, List.mem_cons_of_mem c hd, hq2⟩

lemma goodChunk_close {N : Nat} {curr : List (List Char)} {curr_len : Nat}
    (hcurr : ∀ q ∈ curr, q ≠ [] ∧ '\n' ∉ q ∧ pyStrip q = q)
    (hlen : (joinCh '\n' curr).length ≤ curr_len)
    (hbound : curr_len ≤ N ∨ ∃ q, curr = [q]) :
    GoodChunk N (joinCh '\n' curr) := by
  refine ⟨curr, rfl, hcurr, ?_⟩
  rcases hbound with hb | ⟨q, rfl⟩
  · exact Or.inl (le_trans hlen hb)
  · by_cases hq : q.length ≤ N
    · exact Or.inl (by simpa [joinCh_single] using hq)
    · exact Or.inr ⟨q, rfl, by omega⟩

lemma chunkLoop_nil (N : Nat) (chunks curr : List (List Char)) (curr_len : Nat) :
    chunkLoop N [] chunks curr curr_len =
      if curr.isEmpty then chunks else chunks ++ [joinCh '\n' curr] := rfl

lemma chunkLoop_cons (N : Nat) (para : List Char) (rest chunks curr : List (List Char))
    (curr_len : Nat) :
    chunkLoop N (para :: rest) chunks curr curr_len =
      if (pyStrip para).isEmpty then chunkLoop N rest chunks curr curr_len
      else if N < curr_len + (pyStrip para).length + 1 then
        chunkLoop N rest (chunks ++ [joinCh '\n' curr]) [pyStrip para]
          (pyStrip para).length
      else chunkLoop N rest chunks (curr ++ [pyStrip para])
        (curr_len + (pyStrip para).length + 1) := rfl

lemma chunkLoop_spec (N : Nat) (paras : List (List Char)) :
    ∀ (chunks curr : List (List Char)) (curr_len : Nat),
      (∀ p ∈ paras, '\n' ∉ p) →
      (∀ q ∈ curr, q ≠ [] ∧ '\n' ∉ q ∧ pyStrip q = q) →
      (joinCh '\n' curr).length ≤ curr_len →
      curr_len ≤ (joinCh '\n' curr).length + 1 →
      (curr = [] → curr_len = 0) →
      (curr_len ≤ N ∨ ∃ q, curr = [q]) →
      ∃ nc : List (List Char),
        chunkLoop N paras chunks curr curr_len = chunks ++ nc ∧
        chunksParaSeq nc = curr ++ stripSeq paras ∧
        ∀ c ∈ nc, GoodChunk N c := by
  induction paras with
  | nil =>
    intro chunks curr curr_len _ hcurr hlen1 _ _ hbound
    rw [chunkLoop_nil]
    cases curr with
    | nil =>
      exact ⟨[], by simp, by simp [chunksParaSeq_nil, stripSeq_nil], by simp⟩
    | cons q qs =>
      refine ⟨[joinCh '\n' (q :: qs)], by simp, ?_, ?_⟩
      · rw [chunksParaSeq_cons, chunksParaSeq_nil, List.append_nil,
          normParas_joinCh hcurr, stripSeq_nil, List.append_nil]
      · intro c hc
        rcases List.mem_singleton.mp hc with rfl
        exact goodChunk_close hcurr hlen1 hbound
  | cons para rest ih =>
    intro chunks curr curr_len hparas hcurr hlen1 hlen2 hnil hbound
    have hpr : ∀ p ∈ rest, '\n' ∉ p := fun p hp => hparas p (List.mem_cons_of_mem _ hp)
    rw [chunkLoop_cons]
    by_cases hb : (pyStrip para).isEmpty
    · rw [if_pos hb]
      have hblank : pyStrip para = [] := by simpa using hb
      obtain ⟨nc, h1, h2, h3⟩ := ih chunks curr curr_len hpr hcurr hlen1 hlen2 hnil hbound
      exact ⟨nc, h1, by rw [h2, stripSeq_cons_blank para rest hblank], h3⟩
    · rw [if_neg hb]
      have hq0 : pyStrip para ≠ [] := by simpa using hb
      have hqnl : '\n' ∉ pyStrip para :=
        not_mem_pyStrip (hparas para (List.mem_cons_self _ _))
      have hqs : pyStrip (pyStrip para) = pyStrip para := pyStrip_idem para
      by_cases hcl : N < curr_len + (pyStrip para).length + 1
      · rw [if_pos hcl]
        obtain ⟨nc, h1, h2, h3⟩ := ih (chunks ++ [joinCh '\n' curr]) [pyStrip para]
          (pyStrip para).length hpr
          (fun q hq => by rcases List.mem_singleton.mp hq with rfl; exact ⟨hq0, hqnl, hqs⟩)
          (by rw [joinCh_single]) (by rw [joinCh_single]; omega) (by simp)
          (Or.inr ⟨pyStrip para, rfl⟩)
        refine ⟨joinCh '\n' curr :: nc, by rw [h1, List.append_assoc]; rfl, ?_, ?_⟩
        · rw [chunksParaSeq_cons, h2, normParas_joinCh hcurr,
            stripSeq_cons_of_ne para rest hq0]
          simp
        · intro c hc
          rcases List.mem_cons.mp hc with rfl | hc2
          · exact goodChunk_close hcurr hlen1 hbound
          · exact h3 c hc2
      · rw [if_neg hcl]
        have hlen1' : (joinCh '\n' (curr ++ [pyStrip para])).length ≤
            curr_len + (pyStrip para).length + 1 := by
          cases curr with
          | nil => simp only [List.nil_append, joinCh_single]; omega
          | cons x xs =>
            rw [length_joinCh_append_one '\n' (pyStrip para) (x :: xs) (by simp)]
            omega
        have hlen2' : curr_len + (pyStrip para).length + 1 ≤
            (joinCh '\n' (curr ++ [pyStrip para])).length + 1 := by
          cases curr with
          | nil =>
            have h0 : curr_len = 0 := hnil rfl
            simp only [List.nil_append, joinCh_single, h0]
            omega
          | cons x xs =>
            rw [length_joinCh_append_one '\n' (pyStrip para) (x :: xs) (by simp)]
            have hx : (joinCh '\n' (x :: xs)).length ≤ curr_len := hlen1
            omega
        obtain ⟨nc, h1, h2, h3⟩ := ih chunks (curr ++ [pyStrip para])
          (curr_len + (pyStrip para).length + 1) hpr
          (fun q hq => by
            rcases List.mem_append.mp hq with h4 | h4
            · exact hcurr q h4
            · rcases List.mem_singleton.mp h4 with rfl; exact ⟨hq0, hqnl, hqs⟩)
          hlen1' hlen2' (by simp)
          (Or.inl (Nat.le_of_not_lt hcl))
        refine ⟨nc, h1, ?_, h3⟩
        rw [h2, stripSeq_cons_of_ne para rest hq0]
        simp [List.append_assoc]

lemma chunk_text_small {t : List Char} {N : Nat} (h : (pyStrip t).length ≤ N) :
    chunk_text t N = [pyStrip t] := by
  unfold chunk_text
  simp [h]

lemma chunk_text_large {t : List Char} {N : Nat} (h : ¬(pyStrip t).length ≤ N) :
    chunk_text t N = chunkLoop N (splitCh '\n' (pyStrip t)) [] [] 0 := by
  unfold chunk_text
  simp [h]

lemma chunk_text_large_spec {t : List Char} {N : Nat} (h : ¬(pyStrip t).length ≤ N) :
    chunksParaSeq (chunk_text t N) = nbParas t ∧ ∀ c ∈ chunk_text t N, GoodChunk N c := by
  obtain ⟨nc, h1, h2, h3⟩ := chunkLoop_spec N (splitCh '\n' (pyStrip t)) [] [] 0
    (not_mem_of_mem_splitCh '\n' (pyStrip t))
    (fun q hq => absurd hq (List.not_mem_nil q))
    (Nat.le_refl 0) (Nat.zero_le _) (fun _ => rfl) (Or.inl (Nat.zero_le N))
  rw [chunk_text_large h, h1, List.nil_append]
  exact ⟨by rw [h2]; rfl, h3⟩

lemma chunk_text_paras (t : List Char) (N : Nat) :
    chunksParaSeq (chunk_text t N) = nbParas t := by
  by_cases h : (pyStrip t).length ≤ N
  · rw [chunk_text_small h, chunksParaSeq_cons, chunksParaSeq_nil, List.append_nil]
    rfl
  · exact (chunk_text_large_spec h).1

lemma nbParas_ne_nil {t : List Char} (h : pyStrip t ≠ []) : nbParas t ≠ [] := by
  obtain ⟨c, cs, hc⟩ : ∃ c cs, pyStrip t = c :: cs := by
    cases hp : pyStrip t with
    | nil => exact absurd hp h
    | cons c cs => exact ⟨c, cs, rfl⟩
  have hcsp : isPySpace c = false := pyStrip_head_not_space hc
  have hcn : ¬c = '\n' := by
    intro he; rw [he] at hcsp; simp [isPySpace] at hcsp
  obtain ⟨y, tl, hy⟩ := splitCh_cons_exists '\n' cs
  unfold nbParas normParas
  rw [hc, splitCh_cons_ne '\n' c cs hcn, hy]
  simp only [List.headD_cons, List.tail_cons]
  rw [stripSeq_cons_of_ne (c :: y) tl (pyStrip_ne_nil_head hcsp)]
  simp

lemma chunk_text_ne_nil (t : List Char) (N : Nat) : chunk_text t N ≠ [] := by
  by_cases h : (pyStrip t).length ≤ N
  · rw [chunk_text_small h]; simp
  · intro he
    have hp : pyStrip t ≠ [] := by
      intro hp0; rw [hp0] at h; simp at h
    have h1 := chunk_text_paras t N
    rw [he, chunksParaSeq_nil] at h1
    exact nbParas_ne_nil hp h1.symm

lemma mem_chunksParaSeq_intro :
    ∀ (cs : List (List Char)) (c q : List Char), c ∈ cs → q ∈ normParas c →
      q ∈ chunksParaSeq cs
  | [], c, q, hc, _ => absurd hc (List.not_mem_nil c)
  | d :: ds, c, q, hc, hq => by
    rw [chunksParaSeq_cons]
    rcases List.mem_cons.mp hc with rfl | h1
    · exact List.mem_append.mpr (Or.inl hq)
    · exact List.mem_append.mpr (Or.inr (mem_chunksParaSeq_intro ds c q h1 hq))

lemma chunk_text_len_bound {t : List Char} {N : Nat} :
    ∀ c ∈ chunk_text t N, c.length ≤ N ∨ ('\n' ∉ c ∧ c ∈ nbParas t ∧ N < c.length) := by
  intro c hc
  by_cases h : (pyStrip t).length ≤ N
  · rw [chunk_text_small h] at hc
    rcases List.mem_singleton.mp hc with rfl
    exact Or.inl h
  · obtain ⟨hps, hgood⟩ := chunk_text_large_spec h
    obtain ⟨g, hcg, hgprops, hlen⟩ := hgood c hc
    rcases hlen with h1 | ⟨q, rfl, hq⟩
    · exact Or.inl h1
    · rw [joinCh_single] at hcg
      subst hcg
      refine Or.inr ⟨(hgprops c (List.mem_singleton_self c)).2.1, ?_, hq⟩
      rw [← chunk_text_paras t N]
      refine mem_chunksParaSeq_intro (chunk_text t N) c c hc ?_
      have hnp : normParas c = [c] := by
        have hj := normParas_joinCh (g := [c]) hgprops
        rwa [joinCh_single] at hj
      rw [hnp]
      exact List.mem_singleton_self c

lemma chunk_text_oversize {t : List Char} {N : Nat} :
    ∀ p ∈ nbParas t, N < p.length → p ∈ chunk_text t N := by
  intro p hp hlen
  by_cases h : (pyStrip t).length ≤ N
  · exfalso
    have hp' : p ∈ stripSeq (splitCh '\n' (pyStrip t)) := hp
    obtain ⟨hne, x, hx, hpx⟩ := mem_stripSeq hp'
    have h1 : x.length ≤ (pyStrip t).length :=
      (infix_of_mem_splitCh '\n' (pyStrip t) x hx).length_le
    have h2 : p.length ≤ x.length := by
      rw [← hpx]; exact length_pyStrip_le x
    omega
  · have hp2 : p ∈ chunksParaSeq (chunk_text t N) := by
      rw [chunk_text_paras]; exact hp
    obtain ⟨c, hc, hpc⟩ := mem_of_mem_chunksParaSeq _ p hp2
    obtain ⟨hps, hgood⟩ := chunk_text_large_spec h
    obtain ⟨g, hcg, hgprops, hlenc⟩ := hgood c hc
    have hng : normParas c = g := by
      rw [hcg]; exact normParas_joinCh hgprops
    rw [hng] at hpc
    have hple : p.length ≤ c.length := by
      rw [hcg]; exact length_le_joinCh '\n' g p hpc
    rcases hlenc with h1 | ⟨q, rfl, hq⟩
    · exact absurd hlen (Nat.not_lt.mpr (le_trans hple h1))
    · rcases List.mem_singleton.mp hpc with rfl
      rw [hcg, joinCh_single] at hc
      exact hc

lemma chunk_text_contains {t : List Char} {N : Nat} :
    ∀ p ∈ nbParas t, ∃ c ∈ chunk_text t N, p <:+: c := by
  intro p hp
  by_cases h : (pyStrip t).length ≤ N
  · refine ⟨pyStrip t, by rw [chunk_text_small h]; exact List.mem_singleton_self _, ?_⟩
    have hp' : p ∈ stripSeq (splitCh '\n' (pyStrip t)) := hp
    obtain ⟨hne, x, hx, hpx⟩ := mem_stripSeq hp'
    have h1 : x <:+: pyStrip t := infix_of_mem_splitCh '\n' (pyStrip t) x hx
    have h2 : p <:+: x := by rw [← hpx]; exact infixOf_pyStrip x
    exact h2.trans h1
  · have hp2 : p ∈ chunksParaSeq (chunk_text t N) := by
      rw [chunk_text_paras]; exact hp
    obtain ⟨c, hc, hpc⟩ := mem_of_mem_chunksParaSeq _ p hp2
    obtain ⟨hps, hgood⟩ := chunk_text_large_spec h
    obtain ⟨g, hcg, hgprops, _⟩ := hgood c hc
    have hng : normParas c = g := by
      rw [hcg]; exact normParas_joinCh hgprops
    rw [hng] at hpc
    refine ⟨c, hc, ?_⟩
    rw [hcg]
    exact infix_of_mem_joinCh '\n' g p hpc

lemma stripSeq_chunksSplit :
    ∀ cs : List (List Char), stripSeq (chunksSplit '\n' cs) = chunksParaSeq cs
  | [] => rfl
  | c :: cs => by
    show stripSeq (splitCh '\n' c ++ chunksSplit '\n' cs) = _
    rw [stripSeq_append, stripSeq_chunksSplit cs, chunksParaSeq_cons]
    rfl

lemma rejoin_paras (t : List Char) (N : Nat) :
    stripSeq (splitCh '\n' (joinCh '\n' (chunk_text t N))) = nbParas t := by
  rw [splitCh_joinCh_flat '\n' (chunk_text t N) (chunk_text_ne_nil t N),
    stripSeq_chunksSplit, chunk_text_paras]

lemma chunkLoop_first_empty (N : Nat) (paras : List (List Char)) :
    ∀ (q : List Char) (qs : List (List Char)),
      (∀ p ∈ paras, '\n' ∉ p) →
      stripSeq paras = q :: qs → N ≤ q.length →
      ∃ nc, chunkLoop N paras [] [] 0 = [] :: nc := by
  induction paras with
  | nil => intro q qs _ hs _; simp [stripSeq_nil] at hs
  | cons para rest ih =>
    intro q qs hparas hs hq
    rw [chunkLoop_cons]
    by_cases hb : (pyStrip para).isEmpty
    · rw [if_pos hb]
      have hblank : pyStrip para = [] := by simpa using hb
      rw [stripSeq_cons_blank para rest hblank] at hs
      exact ih q qs (fun p hp => hparas p (List.mem_cons_of_mem _ hp)) hs hq
    · rw [if_neg hb]
      have hq0 : pyStrip para ≠ [] := by simpa using hb
      rw [stripSeq_cons_of_ne para rest hq0] at hs
      injection hs with hs1 hs2
      have hcl : N < 0 + (pyStrip para).length + 1 := by
        rw [hs1]; omega
      rw [if_pos hcl]
      obtain ⟨nc, h1, _, _⟩ := chunkLoop_spec N rest [joinCh '\n' []] [pyStrip para]
        (pyStrip para).length
        (fun p hp => hparas p (List.mem_cons_of_mem _ hp))
        (fun x hx => by
          rcases List.mem_singleton.mp hx with rfl
          exact ⟨hq0, not_mem_pyStrip (hparas para (List.mem_cons_self _ _)),
            pyStrip_idem para⟩)
        (by rw [joinCh_single]) (by rw [joinCh_single]; omega) (by simp)
        (Or.inr ⟨pyStrip para, rfl⟩)
      exact ⟨nc, h1⟩

lemma chunk_text_first_empty {t : List Char} {N : Nat} {q : List Char}
    {qs : List (List Char)} (hlen : N < (pyStrip t).length)
    (hnb : nbParas t = q :: qs) (hq : N ≤ q.length) :
    (chunk_text t N).head? = some [] := by
  have h : ¬(pyStrip t).length ≤ N := by omega
  rw [chunk_text_large h]
  have hnb2 : stripSeq (splitCh '\n' (pyStrip t)) = q :: qs := hnb
  obtain ⟨nc, hnc⟩ := chunkLoop_first_empty N (splitCh '\n' (pyStrip t)) q qs
    (not_mem_of_mem_splitCh '\n' (pyStrip t)) hnb2 hq
  rw [hnc]
  rfl

lemma runChunksE_all_ok {E : Type} (g : List Char → Except E (List Char))
    (g0 : List Char → List Char) :
    ∀ cs : List (List Char), (∀ p ∈ cs, g p = Except.ok (g0 p)) →
      runChunksE g cs = (Except.ok (cs.map g0), cs)
  | [], _ => rfl
  | c :: cs, hok => by
    have hc : g c = Except.ok (g0 c) := hok c (List.mem_cons_self _ _)
    have ih := runChunksE_all_ok g g0 cs (fun p hp => hok p (List.mem_cons_of_mem _ hp))
    simp [runChunksE, hc, ih]

lemma runChunksE_first_err {E : Type} (g : List Char → Except E (List Char)) (e : E) :
    ∀ (pre : List (List Char)) (c : List Char) (post : List (List Char)),
      (∀ p ∈ pre, ∃ r, g p = Except.ok r) → g c = Except.error e →
      runChunksE g (pre ++ c :: post) = (Except.error e, pre ++ [c])
  | [], c, post, _, hc => by simp [runChunksE, hc]
  | p :: pre, c, post, hpre, hc => by
    obtain ⟨r, hr⟩ := hpre p (List.mem_cons_self _ _)
    have ih := runChunksE_first_err g e pre c post
      (fun x hx => hpre x (List.mem_cons_of_mem _ hx)) hc
    simp [runChunksE, hr, ih]

/-- C1: for a multi-chunk article, `summarize` invokes the external
capability once per chunk in order plus one merge pass on the joined
per-chunk summaries, `n + 1` calls in total; for a single-chunk article
it invokes it exactly once and the final summary equals that chunk's
summary (the merge pass is skipped). -/
theorem summarize_call_pattern (f : List Char → Nat → Nat → Nat → List Char)
    (a : List Char) (mn mx bm : Nat) (h : pyStrip a ≠ []) :
    (1 < (chunk_text a 1200).length →
      summarizeCalls f a mn mx bm = chunk_text a 1200 ++ [combinedOf f a mn mx bm] ∧
      (summarizeCalls f a mn mx bm).length = (chunk_text a 1200).length + 1) ∧
    (∀ c, chunk_text a 1200 = [c] →
      summarizeCalls f a mn mx bm = [c] ∧
      (summarizeCalls f a mn mx bm).length = 1 ∧
      finalOf f a mn mx bm = f c mn mx bm) := by
  have hne : (pyStrip a).isEmpty = false := by simpa using h
  constructor
  · intro hgt
    constructor
    · simp [summarizeCalls, hne, hgt]
    · simp [summarizeCalls, hne, hgt, List.length_append]
  · intro c hc
    have hnot : ¬1 < (chunk_text a 1200).length := by rw [hc]; simp
    refine ⟨?_, ?_, ?_⟩
    · simp [summarizeCalls, hne, hc, hnot]
    · simp [summarizeCalls, hne, hc, hnot]
    · simp [finalOf, hnot, combinedOf, perChunkSummaries, hc, joinCh_single]

/-- Witness for C1: a one-chunk article with a constant stub makes
exactly one call and the final summary is the stub output on the sole
chunk. -/
theorem summarize_call_pattern_w :
    pyStrip (toL "hi") ≠ [] ∧
    (summarizeCalls (stubConst (toL "S")) (toL "hi") 60 160 4 = [toL "hi"] ∧
     (summarizeCalls (stubConst (toL "S")) (toL "hi") 60 160 4).length = 1 ∧
     finalOf (stubConst (toL "S")) (toL "hi") 60 160 4 =
       stubConst (toL "S") (toL "hi") 60 160 4) :=
  ⟨by decide,
    (summarize_call_pattern (stubConst (toL "S")) (toL "hi") 60 160 4
      (by decide)).2 (toL "hi") (by decide)⟩

/-- C2: every chunk produced by `chunk_text` has length at most `N`,
except that a chunk that is a single non-blank stripped paragraph of the
article may exceed `N` when that one paragraph alone is longer than
`N`. -/
theorem chunk_size_bound (t : List Char) (N : Nat) (_hN : 0 < N) :
    ∀ c ∈ chunk_text t N,
      c.length ≤ N ∨ ('\n' ∉ c ∧ c ∈ nbParas t ∧ N < c.length) :=
  fun c hc => chunk_text_len_bound c hc

/-- Witness for C2: in `chunk_text "ab\nc" 1` the chunk "ab" is an
oversized single paragraph. -/
theorem chunk_size_bound_w :
    0 < 1 ∧ toL "ab" ∈ chunk_text (toL "ab\nc") 1 ∧
    ((toL "ab").length ≤ 1 ∨
      ('\n' ∉ toL "ab" ∧ toL "ab" ∈ nbParas (toL "ab\nc") ∧
        1 < (toL "ab").length)) :=
  ⟨by decide, by decide,
    chunk_size_bound (toL "ab\nc") 1 (by decide) (toL "ab") (by decide)⟩

/-- C3: `chunk_text` never splits a paragraph across chunks: the
concatenated per-chunk paragraph sequences are exactly the article's
non-blank stripped paragraphs in order (each paragraph occurrence lands
whole in exactly one chunk), every such paragraph appears whole inside a
chunk, and a paragraph longer than `N` is placed alone as its own
chunk. -/
theorem paragraphs_never_split (t : List Char) (N : Nat) (_hN : 0 < N) :
    chunksParaSeq (chunk_text t N) = nbParas t ∧
    (∀ p ∈ nbParas t, ∃ c ∈ chunk_text t N, p <:+: c) ∧
    (∀ p ∈ nbParas t, N < p.length → p ∈ chunk_text t N) :=
  ⟨chunk_text_paras t N, chunk_text_contains, chunk_text_oversize⟩

/-- Witness for C3 on a concrete two-paragraph article. -/
theorem paragraphs_never_split_w :
    0 < 1 ∧
    (chunksParaSeq (chunk_text (toL "ab\nc") 1) = nbParas (toL "ab\nc") ∧
     (∀ p ∈ nbParas (toL "ab\nc"), ∃ c ∈ chunk_text (toL "ab\nc") 1, p <:+: c) ∧
     (∀ p ∈ nbParas (toL "ab\nc"), 1 < p.length → p ∈ chunk_text (toL "ab\nc") 1)) :=
  ⟨by decide, paragraphs_never_split (toL "ab\nc") 1 (by decide)⟩

/-- C4: when the trimmed text already fits in `max_chars`, `chunk_text`
returns exactly one chunk, the trimmed input itself. -/
theorem chunk_small_identity (t : List Char) (N : Nat)
    (h : (pyStrip t).length ≤ N) : chunk_text t N = [pyStrip t] :=
  chunk_text_small h

/-- Witness for C4 on a short padded article. -/
theorem chunk_small_identity_w :
    (pyStrip (toL " hi ")).length ≤ 1200 ∧
    chunk_text (toL " hi ") 1200 = [pyStrip (toL " hi ")] :=
  ⟨by decide, chunk_small_identity (toL " hi ") 1200 (by decide)⟩

/-- C5: an empty or whitespace-only article makes `summarize` return the
"no content" sentinel as a normal value, with zero invocations of the
summarization capability. -/
theorem summarize_empty_input (f : List Char → Nat → Nat → Nat → List Char)
    (a : List Char) (mn mx bm : Nat) (h : pyStrip a = []) :
    summarize f a mn mx bm = noContentMsg ∧ summarizeCalls f a mn mx bm = [] := by
  have hb : (pyStrip a).isEmpty = true := by simp [h]
  constructor
  · simp [summarize, hb]
  · simp [summarizeCalls, hb]

/-- Witness for C5 on a whitespace-only article. -/
theorem summarize_empty_input_w :
    pyStrip (toL "  \n ") = [] ∧
    (summarize (stubConst (toL "S")) (toL "  \n ") 60 160 4 = noContentMsg ∧
     summarizeCalls (stubConst (toL "S")) (toL "  \n ") 60 160 4 = []) :=
  ⟨by decide, summarize_empty_input (stubConst (toL "S")) (toL "  \n ") 60 160 4 (by decide)⟩

/-- C6: bullet extraction splits `final` on periods, trims fragments,
discards empty ones, keeps at most the first 5 and re-suffixes each with
a period: on "A.  B. C." the key points are exactly
["A.", "B.", "C."], with more than 5 sentences only the first 5 are
kept, and the cap holds for every input. -/
theorem bullet_extraction :
    keyPoints (toL "A.  B. C.") = [toL "A.", toL "B.", toL "C."] ∧
    keyPoints (toL "S1. S2. S3. S4. S5. S6. S7.") =
      [toL "S1.", toL "S2.", toL "S3.", toL "S4.", toL "S5."] ∧
    ∀ s : List Char, (keyPoints s).length ≤ 5 := by
  refine ⟨by decide, by decide, ?_⟩
  intro s
  unfold keyPoints
  rw [List.length_map]
  exact List.length_take_le 5 _

/-- C7: `combined` is the line-break join of the per-chunk summaries in
chunk order; with newline-free summaries, splitting `combined` on line
breaks recovers the per-chunk summary sequence in exactly chunk order,
and the chunk list is an order-preserving prefix of the invocation
sequence. -/
theorem combined_preserves_order (f : List Char → Nat → Nat → Nat → List Char)
    (a : List Char) (mn mx bm : Nat)
    (hf : ∀ c, '\n' ∉ f c mn mx bm) (ha : pyStrip a ≠ []) :
    combinedOf f a mn mx bm =
      joinCh '\n' ((chunk_text a 1200).map (fun c => f c mn mx bm)) ∧
    splitCh '\n' (combinedOf f a mn mx bm) =
      (chunk_text a 1200).map (fun c => f c mn mx bm) ∧
    chunk_text a 1200 <+: summarizeCalls f a mn mx bm := by
  have hne : (pyStrip a).isEmpty = false := by simpa using ha
  refine ⟨rfl, ?_, ?_⟩
  · unfold combinedOf perChunkSummaries
    apply splitCh_joinCh
    · intro x hx
      obtain ⟨c, hc, hfc⟩ := List.mem_map.mp hx
      rw [← hfc]
      exact hf c
    · intro hmap
      exact chunk_text_ne_nil a 1200 (by simpa using hmap)
  · unfold summarizeCalls
    rw [if_neg (by simp [hne])]
    exact List.prefix_append _ _

/-- Witness for C7 with a constant newline-free stub. -/
theorem combined_preserves_order_w :
    (∀ c, '\n' ∉ stubConst (toL "S") c 60 160 4) ∧ pyStrip (toL "ok") ≠ [] ∧
    (combinedOf (stubConst (toL "S")) (toL "ok") 60 160 4 =
       joinCh '\n' ((chunk_text (toL "ok") 1200).map
         (fun c => stubConst (toL "S") c 60 160 4)) ∧
     splitCh '\n' (combinedOf (stubConst (toL "S")) (toL "ok") 60 160 4) =
       (chunk_text (toL "ok") 1200).map (fun c => stubConst (toL "S") c 60 160 4) ∧
     chunk_text (toL "ok") 1200 <+:
       summarizeCalls (stubConst (toL "S")) (toL "ok") 60 160 4) :=
  ⟨fun _ => by show ('\n' : Char) ∉ toL "S"; decide, by decide,
    combined_preserves_order (stubConst (toL "S")) (toL "ok") 60 160 4
      (fun _ => by show ('\n' : Char) ∉ toL "S"; decide) (by decide)⟩

/-- C8 as stated is false: the rejoined chunks carry each paragraph in
stripped form, so for " a\nb" (one chunk, the trimmed text "a\nb") the
paragraph sequence of the rejoined text is ["a", "b"], which differs
from the original's blank-filtered paragraph sequence [" a", "b"]. -/
theorem chunks_rejoin_cex :
    ¬(splitCh '\n' (joinCh '\n' (chunk_text (toL " a\nb") 10)) =
      (splitCh '\n' (toL " a\nb")).filter (fun p => !(pyStrip p).isEmpty)) := by
  decide

/-- C8 amended: rejoining the chunks with line breaks reproduces the
article's paragraph sequence up to per-paragraph whitespace trimming and
blank-paragraph removal applied on both sides (the code also strips each
paragraph, and the first chunk can be blank): the stripped non-blank
paragraphs of the rejoined text are exactly `nbParas t`; and
`chunk_text` returns at least one chunk for every non-empty article. -/
theorem chunks_rejoin (t : List Char) (N : Nat) (_h : t ≠ []) :
    stripSeq (splitCh '\n' (joinCh '\n' (chunk_text t N))) = nbParas t ∧
    chunk_text t N ≠ [] :=
  ⟨rejoin_paras t N, chunk_text_ne_nil t N⟩

/-- Witness for C8 amended on a concrete article. -/
theorem chunks_rejoin_w :
    toL "ab\nc" ≠ [] ∧
    (stripSeq (splitCh '\n' (joinCh '\n' (chunk_text (toL "ab\nc") 1))) =
       nbParas (toL "ab\nc") ∧
     chunk_text (toL "ab\nc") 1 ≠ []) :=
  ⟨by decide, chunks_rejoin (toL "ab\nc") 1 (by decide)⟩

/-- C9: a failing invocation propagates unchanged to the caller and no
further invocation is attempted: if the per-chunk calls before some
chunk succeed and the call on that chunk raises `e`, `summarizeE`
returns that same `e` having attempted exactly the chunks up to and
including the failing one; if every per-chunk call succeeds and the
merge-pass call on the joined summaries raises `e`, that same `e` is
returned after the chunks plus the single merge attempt.  Nothing is
caught, suppressed, or retried. -/
theorem summarize_error_propagation {E : Type}
    (f : List Char → Nat → Nat → Nat → Except E (List Char))
    (a : List Char) (mn mx bm : Nat) (e : E) (ha : pyStrip a ≠ []) :
    (∀ (pre : List (List Char)) (c : List Char) (post : List (List Char)),
      chunk_text a 1200 = pre ++ c :: post →
      (∀ p ∈ pre, ∃ r, f p mn mx bm = Except.ok r) →
      f c mn mx bm = Except.error e →
      summarizeE f a mn mx bm = (Except.error e, pre ++ [c])) ∧
    (∀ g0 : List Char → List Char,
      (∀ p ∈ chunk_text a 1200, f p mn mx bm = Except.ok (g0 p)) →
      1 < (chunk_text a 1200).length →
      f (joinCh '\n' ((chunk_text a 1200).map g0)) mn mx bm = Except.error e →
      summarizeE f a mn mx bm =
        (Except.error e,
          chunk_text a 1200 ++ [joinCh '\n' ((chunk_text a 1200).map g0)])) := by
  have hne : (pyStrip a).isEmpty = false := by simpa using ha
  constructor
  · intro pre c post hsplit hpre hc
    have hrun := runChunksE_first_err (fun x => f x mn mx bm) e pre c post hpre hc
    rw [← hsplit] at hrun
    simp [summarizeE, hne, hrun]
  · intro g0 hok hgt hmerge
    have hrun := runChunksE_all_ok (fun x => f x mn mx bm) g0 (chunk_text a 1200) hok
    simp [summarizeE, hne, hrun, hgt, hmerge]

/-- Witness for C9: an always-failing stub on a one-chunk article fails
on the very first call, which is also the only attempted call. -/
theorem summarize_error_propagation_w :
    pyStrip (toL "ok") ≠ [] ∧
    chunk_text (toL "ok") 1200 = [] ++ toL "ok" :: [] ∧
    stubFail (toL "ok") 60 160 4 = Except.error 7 ∧
    summarizeE stubFail (toL "ok") 60 160 4 = (Except.error 7, [] ++ [toL "ok"]) :=
  ⟨by decide, by decide, rfl,
    (summarize_error_propagation stubFail (toL "ok") 60 160 4 7 (by decide)).1
      [] (toL "ok") [] (by decide) (by simp) rfl⟩

/-- C10: when the trimmed text exceeds `max_chars` and its first
non-blank paragraph alone has length at least `max_chars`, the size
check closes the still-empty accumulator before that paragraph is
added, so the first chunk of the output is the empty string — a blank
chunk that is not among the article's paragraphs. -/
theorem first_chunk_blank (t : List Char) (N : Nat) (q : List Char)
    (qs : List (List Char)) (hlen : N < (pyStrip t).length)
    (hnb : nbParas t = q :: qs) (hq : N ≤ q.length) :
    (chunk_text t N).head? = some [] ∧ [] ∉ nbParas t := by
  refine ⟨chunk_text_first_empty hlen hnb hq, ?_⟩
  intro hmem
  have hp' : ([] : List Char) ∈ stripSeq (splitCh '\n' (pyStrip t)) := hmem
  exact (mem_stripSeq hp').1 rfl

/-- Witness for C10: "abc\nd" with `max_chars = 2` starts with a blank
chunk. -/
theorem first_chunk_blank_w :
    2 < (pyStrip (toL "abc\nd")).length ∧
    nbParas (toL "abc\nd") = [toL "abc", toL "d"] ∧
    2 ≤ (toL "abc").length ∧
    ((chunk_text (toL "abc\nd") 2).head? = some [] ∧
      [] ∉ nbParas (toL "abc\nd")) :=
  ⟨by decide, by decide, by decide,
    first_chunk_blank (toL "abc\nd") 2 (toL "abc") [toL "d"]
      (by decide) (by decide) (by decide)⟩

example : chunk_text (toL "hello world") 1200 = [toL "hello world"] := by decide

example : chunk_text (toL "ab\nc") 1 = [toL "", toL "ab", toL "c"] := by decide

example : chunk_text (toL "ab\ncd\nef") 5 = [toL "ab", toL "cd\nef"] := by decide

example :
    summarize (stubConst (toL "S")) (toL "hi") 60 160 4 =
      toL "\n=== SUMMARY ===\nS\n\n=== KEY POINTS ===\n- S.\n" := by decide
